import Mathlib

/-!
Verification of the kcoreaddons plugin-indexing subsystem specification,
together with the `KUrlMimeData` metadata codec and the `KTextToHTML`
plain-text-to-HTML converter.

The plugin indexer itself (`kpluginindexer.h/cpp`, `KPluginLoader`) is not
part of the source tree available here; only its test driver
(`autotests/kpluginindextest.cpp`) is.  The indexer's data model and
operations are therefore modelled from the specification (spec.md §3–§7):
each such definition carries a doc comment starting with
`Modelled from the spec:`.  The `KUrlMimeData` and `KTextToHTML` models are
translated directly from `src/lib/io/kurlmimedata.cpp` and
`src/lib/text/ktexttohtml.cpp`.
-/

set_option linter.unusedVariables false

namespace KCoreAddons

/-! ## JSON-like metadata values

Modelled from the spec (§3, §9): each descriptor's metadata is an ordered
mapping of string keys to JSON-like values, represented as a tagged-variant
value type (string / number / bool / null / ordered list / ordered map of
variant).  The three types are mutually inductive so that structural
recursion over nested arrays and objects is direct. -/

mutual
inductive JValue : Type where
  | jnull : JValue
  | jbool : Bool → JValue
  | jnum : Int → JValue
  | jstr : String → JValue
  | jarr : JArr → JValue
  | jobj : JObj → JValue
inductive JArr : Type where
  | anil : JArr
  | acons : JValue → JArr → JArr
inductive JObj : Type where
  | onil : JObj
  | ocons : String → JValue → JObj → JObj
end

deriving instance DecidableEq for JValue, JArr, JObj

/-- Modelled from the spec (§3): one candidate plugin file — index-relative
path, filesystem modification timestamp (seconds resolution), and the opaque
metadata mapping parsed from the descriptor's content. -/
structure PluginDescriptor where
  filePath : String
  lastModifiedTime : Nat
  metadata : JObj
deriving DecidableEq

/-- Modelled from the spec (§3): the persisted cache for exactly one
directory — the directory path, a snapshot of the directory's own mtime at
index-build time, and the ordered sequence of descriptor records. -/
structure DirectoryIndex where
  directoryPath : String
  directoryModificationTime : Nat
  entries : List PluginDescriptor
deriving DecidableEq

/-! ## Index Store: binary encoding

Modelled from the spec (§4.3, §6): the on-disk index file is a dense
length-prefixed binary layout — a header carrying a format/version tag and
the directory modification timestamp, followed by a count-prefixed sequence
of records, each holding a length-prefixed file name, a modification
timestamp, and an embedded length-prefixed metadata blob.  Each `Nat` in the
token list abstracts one machine word of the file. -/

/-- A string is serialized as its character count followed by the
code points of its characters. -/
def encodeString (s : String) : List Nat :=
  s.data.length :: s.data.map Char.toNat

/-- Decode a length-prefixed string; fails (`none`) if the token stream is
too short. -/
def decodeString : List Nat → Option (String × List Nat)
  | [] => none
  | n :: rest =>
    if n ≤ rest.length then
      some (String.mk ((rest.take n).map Char.ofNat), rest.drop n)
    else none

/-- Number of elements of a serialized array (its count prefix). -/
def arrLen : JArr → Nat
  | .anil => 0
  | .acons _ r => arrLen r + 1

/-- Number of key/value pairs of a serialized object (its count prefix). -/
def objLen : JObj → Nat
  | .onil => 0
  | .ocons _ _ r => objLen r + 1

mutual
/-- Serialize one metadata value: a tag token followed by the payload. -/
def encodeJV : JValue → List Nat
  | .jnull => [0]
  | .jbool b => [1, cond b 1 0]
  | .jnum n => [2, if n < 0 then 1 else 0, n.natAbs]
  | .jstr s => 3 :: encodeString s
  | .jarr a => 4 :: arrLen a :: encodeJA a
  | .jobj o => 5 :: objLen o :: encodeJO o
/-- Serialize the elements of an array, in order. -/
def encodeJA : JArr → List Nat
  | .anil => []
  | .acons v r => encodeJV v ++ encodeJA r
/-- Serialize the key/value pairs of an object, in order. -/
def encodeJO : JObj → List Nat
  | .onil => []
  | .ocons k v r => encodeString k ++ encodeJV v ++ encodeJO r
end

/-! The decoder is written with explicit fuel (the nesting depth it is
prepared to traverse); the top-level index decoder passes the token count,
which is always sufficient because every nesting level of an encoded value
consumes at least one token. -/

mutual
def decodeJV : Nat → List Nat → Option (JValue × List Nat)
  | 0, _ => none
  | _ + 1, 0 :: r => some (.jnull, r)
  | _ + 1, 1 :: b :: r => some (.jbool (b == 1), r)
  | _ + 1, 2 :: sg :: m :: r =>
    some (.jnum (if sg == 1 then -(m : Int) else (m : Int)), r)
  | _ + 1, 3 :: r => (decodeString r).map (fun p => (.jstr p.1, p.2))
  | f + 1, 4 :: n :: r => (decodeJA f n r).map (fun p => (.jarr p.1, p.2))
  | f + 1, 5 :: n :: r => (decodeJO f n r).map (fun p => (.jobj p.1, p.2))
  | _ + 1, _ => none
termination_by f toks => (f, 0)
def decodeJA : Nat → Nat → List Nat → Option (JArr × List Nat)
  | _, 0, r => some (.anil, r)
  | f, n + 1, r =>
    match decodeJV f r with
    | none => none
    | some (v, r1) =>
      match decodeJA f n r1 with
      | none => none
      | some (a, r2) => some (.acons v a, r2)
termination_by f n toks => (f, n + 1)
def decodeJO : Nat → Nat → List Nat → Option (JObj × List Nat)
  | _, 0, r => some (.onil, r)
  | f, n + 1, r =>
    match decodeString r with
    | none => none
    | some (k, r1) =>
      match decodeJV f r1 with
      | none => none
      | some (v, r2) =>
        match decodeJO f n r2 with
        | none => none
        | some (o, r3) => some (.ocons k v o, r3)
termination_by f n toks => (f, n + 1)
end

/-! ## Round-trip of the value codec -/

mutual
/-- Nesting depth of a value: the fuel a decoder needs to traverse it. -/
def jdepthV : JValue → Nat
  | .jnull => 1
  | .jbool _ => 1
  | .jnum _ => 1
  | .jstr _ => 1
  | .jarr a => jdepthA a + 1
  | .jobj o => jdepthO o + 1
def jdepthA : JArr → Nat
  | .anil => 0
  | .acons v r => max (jdepthV v) (jdepthA r)
def jdepthO : JObj → Nat
  | .onil => 0
  | .ocons _ v r => max (jdepthV v) (jdepthO r)
end

theorem jdepthV_pos (v : JValue) : 1 ≤ jdepthV v := by
  cases v <;> simp [jdepthV]

theorem map_ofNat_toNat (l : List Char) : l.map (Char.ofNat ∘ Char.toNat) = l := by
  induction l with
  | nil => rfl
  | cons c cs ih => simp [ih, Char.ofNat_toNat]

theorem decodeString_encodeString (s : String) (rest : List Nat) :
    decodeString (encodeString s ++ rest) = some (s, rest) := by
  cases s with
  | mk d =>
    have hlen : d.length ≤ (d.map Char.toNat ++ rest).length := by simp
    have htake : (d.map Char.toNat ++ rest).take d.length = d.map Char.toNat := by
      rw [show d.length = (d.map Char.toNat).length by simp]
      exact List.take_left _ _
    have hdrop : (d.map Char.toNat ++ rest).drop d.length = rest := by
      rw [show d.length = (d.map Char.toNat).length by simp]
      exact List.drop_left _ _
    simp only [encodeString, List.cons_append, decodeString, hlen, if_pos,
      htake, hdrop, List.map_map, map_ofNat_toNat]

mutual
/-- Decoding inverts encoding for a single value, given fuel at least the
value's nesting depth. -/
theorem decodeJV_encodeJV (v : JValue) (fuel : Nat) (rest : List Nat)
    (h : jdepthV v ≤ fuel) :
    decodeJV fuel (encodeJV v ++ rest) = some (v, rest) := by
  cases fuel with
  | zero => exact absurd (le_trans (jdepthV_pos v) h) (by omega)
  | succ f =>
    cases v with
    | jnull => simp [encodeJV, decodeJV]
    | jbool b => cases b <;> simp [encodeJV, decodeJV]
    | jnum n =>
      rcases lt_or_ge n 0 with hn | hn
      · simp only [encodeJV, if_pos hn, List.cons_append, List.nil_append,
          decodeJV]
        simp only [beq_self_eq_true, if_pos]
        have : -(n.natAbs : Int) = n := by omega
        rw [this]
      · simp only [encodeJV, if_neg (by omega : ¬ n < 0), List.cons_append,
          List.nil_append, decodeJV]
        have h0 : ((0 : Nat) == 1) = false := rfl
        rw [h0]
        have : (n.natAbs : Int) = n := by omega
        simp [this]
    | jstr s =>
      simp [encodeJV, decodeJV, decodeString_encodeString]
    | jarr a =>
      have ha : jdepthA a ≤ f := by
        have := h; simp only [jdepthV] at this; omega
      have h1 := decodeJA_encodeJA a f rest ha
      simp [encodeJV, decodeJV, h1]
    | jobj o =>
      have ho : jdepthO o ≤ f := by
        have := h; simp only [jdepthV] at this; omega
      have h1 := decodeJO_encodeJO o f rest ho
      simp [encodeJV, decodeJV, h1]
termination_by sizeOf v
/-- Decoding inverts encoding for the element sequence of an array. -/
theorem decodeJA_encodeJA (a : JArr) (fuel : Nat) (rest : List Nat)
    (h : jdepthA a ≤ fuel) :
    decodeJA fuel (arrLen a) (encodeJA a ++ rest) = some (a, rest) := by
  cases a with
  | anil => simp [encodeJA, arrLen, decodeJA]
  | acons v r =>
    have hv : jdepthV v ≤ fuel := by
      have := h; simp only [jdepthA] at this; omega
    have hr : jdepthA r ≤ fuel := by
      have := h; simp only [jdepthA] at this; omega
    have h1 := decodeJV_encodeJV v fuel (encodeJA r ++ rest) hv
    have h2 := decodeJA_encodeJA r fuel rest hr
    simp only [encodeJA, arrLen, List.append_assoc]
    simp [decodeJA, h1, h2]
termination_by sizeOf a
/-- Decoding inverts encoding for the pair sequence of an object. -/
theorem decodeJO_encodeJO (o : JObj) (fuel : Nat) (rest : List Nat)
    (h : jdepthO o ≤ fuel) :
    decodeJO fuel (objLen o) (encodeJO o ++ rest) = some (o, rest) := by
  cases o with
  | onil => simp [encodeJO, objLen, decodeJO]
  | ocons k v r =>
    have hv : jdepthV v ≤ fuel := by
      have := h; simp only [jdepthO] at this; omega
    have hr : jdepthO r ≤ fuel := by
      have := h; simp only [jdepthO] at this; omega
    have h1 := decodeJV_encodeJV v fuel (encodeJO r ++ rest) hv
    have h2 := decodeJO_encodeJO r fuel rest hr
    simp only [encodeJO, objLen, List.append_assoc]
    simp [decodeJO, decodeString_encodeString, h1, h2]
termination_by sizeOf o
end


/-! ## Fuel bounds: a value's depth never exceeds its encoded length -/

mutual
theorem jdepthV_le_encode (v : JValue) : jdepthV v ≤ (encodeJV v).length := by
  cases v with
  | jnull => simp [jdepthV, encodeJV]
  | jbool b => simp [jdepthV, encodeJV]
  | jnum n => simp [jdepthV, encodeJV]
  | jstr s => simp [jdepthV, encodeJV]
  | jarr a =>
    have := jdepthA_le_encode a
    simp only [jdepthV, encodeJV, List.length_cons]
    omega
  | jobj o =>
    have := jdepthO_le_encode o
    simp only [jdepthV, encodeJV, List.length_cons]
    omega
termination_by sizeOf v
theorem jdepthA_le_encode (a : JArr) : jdepthA a ≤ (encodeJA a).length + 1 := by
  cases a with
  | anil => simp [jdepthA, encodeJA]
  | acons v r =>
    have h1 := jdepthV_le_encode v
    have h2 := jdepthA_le_encode r
    simp only [jdepthA, encodeJA, List.length_append]
    omega
termination_by sizeOf a
theorem jdepthO_le_encode (o : JObj) : jdepthO o ≤ (encodeJO o).length + 1 := by
  cases o with
  | onil => simp [jdepthO, encodeJO]
  | ocons k v r =>
    have h1 := jdepthV_le_encode v
    have h2 := jdepthO_le_encode r
    simp only [jdepthO, encodeJO, List.length_append]
    omega
termination_by sizeOf o
end

/-! ## Index Store: records and the whole file -/

/-- The embedded length-prefixed metadata blob of one record (spec §6):
pair count followed by the serialized pairs. -/
def metadataBlob (o : JObj) : List Nat :=
  objLen o :: encodeJO o

/-- Decode a metadata blob; the blob must be consumed exactly. -/
def decodeBlob (fuel : Nat) (blob : List Nat) : Option JObj :=
  match blob with
  | n :: r =>
    match decodeJO fuel n r with
    | some (o, []) => some o
    | _ => none
  | [] => none

/-- One record: length-prefixed file name, modification timestamp, then the
length-prefixed metadata blob. -/
def encodeEntry (e : PluginDescriptor) : List Nat :=
  encodeString e.filePath ++
    e.lastModifiedTime :: (metadataBlob e.metadata).length :: metadataBlob e.metadata

/-- Read one raw token (a timestamp or a length prefix). -/
def readTok : List Nat → Option (Nat × List Nat)
  | [] => none
  | n :: r => some (n, r)

def decodeEntry (fuel : Nat) (toks : List Nat) : Option (PluginDescriptor × List Nat) :=
  match decodeString toks with
  | none => none
  | some (path, r1) =>
    match readTok r1 with
    | none => none
    | some (mt, r1a) =>
      match readTok r1a with
      | none => none
      | some (bl, r2) =>
        if bl ≤ r2.length then
          match decodeBlob fuel (r2.take bl) with
          | some o => some (⟨path, mt, o⟩, r2.drop bl)
          | none => none
        else none

def encodeEntries : List PluginDescriptor → List Nat
  | [] => []
  | e :: es => encodeEntry e ++ encodeEntries es

def decodeEntries (fuel : Nat) : Nat → List Nat → Option (List PluginDescriptor × List Nat)
  | 0, toks => some ([], toks)
  | n + 1, toks =>
    match decodeEntry fuel toks with
    | none => none
    | some (e, r1) =>
      match decodeEntries fuel n r1 with
      | none => none
      | some (es, r2) => some (e :: es, r2)

/-- Modelled from the spec (§6): the self-versioning format tag the reader
validates before trusting the remaining bytes. -/
def indexFormatVersion : Nat := 1

/-- Modelled from the spec (§4.3, §6): serialize an index file — header
(version tag, directory modification timestamp), then the count-prefixed
records. -/
def encodeIndex (dirMtime : Nat) (es : List PluginDescriptor) : List Nat :=
  indexFormatVersion :: dirMtime :: es.length :: encodeEntries es

/-- Modelled from the spec (§4.3): attempt to load an index file; validates
the version tag first and fails cleanly (`none`) on any version mismatch,
truncation, or decode error, including trailing garbage. -/
def decodeIndexBytes (toks : List Nat) : Option (Nat × List PluginDescriptor) :=
  match toks with
  | v :: mt :: n :: rest =>
    if v = indexFormatVersion then
      match decodeEntries toks.length n rest with
      | some (es, []) => some (mt, es)
      | _ => none
    else none
  | _ => none

theorem decodeEntry_encodeEntry (e : PluginDescriptor) (fuel : Nat) (rest : List Nat)
    (h : jdepthO e.metadata ≤ fuel) :
    decodeEntry fuel (encodeEntry e ++ rest) = some (e, rest) := by
  have hblob : decodeBlob fuel (metadataBlob e.metadata) = some e.metadata := by
    have h1 := decodeJO_encodeJO e.metadata fuel [] h
    rw [List.append_nil] at h1
    simp [decodeBlob, metadataBlob, h1]
  have hb : (metadataBlob e.metadata).length ≤ (metadataBlob e.metadata ++ rest).length := by
    simp
  simp only [encodeEntry, List.append_assoc, List.cons_append,
    decodeEntry, decodeString_encodeString, readTok]
  simp only [hb, if_pos, List.take_left, List.drop_left, hblob]

theorem decodeEntries_encodeEntries (es : List PluginDescriptor) (fuel : Nat)
    (rest : List Nat) (h : ∀ e ∈ es, jdepthO e.metadata ≤ fuel) :
    decodeEntries fuel es.length (encodeEntries es ++ rest) = some (es, rest) := by
  induction es with
  | nil => simp [encodeEntries, decodeEntries]
  | cons e es ih =>
    have he : jdepthO e.metadata ≤ fuel := h e (by simp)
    have hes : ∀ x ∈ es, jdepthO x.metadata ≤ fuel := fun x hx => h x (by simp [hx])
    have h1 := decodeEntry_encodeEntry e fuel (encodeEntries es ++ rest) he
    simp only [encodeEntries, List.append_assoc, List.length_cons, decodeEntries,
      h1, ih hes]

theorem jdepthO_le_encodeEntry (e : PluginDescriptor) :
    jdepthO e.metadata ≤ (encodeEntry e).length := by
  have h1 := jdepthO_le_encode e.metadata
  simp only [encodeEntry, metadataBlob, List.length_append, List.length_cons,
    encodeString, List.length_map]
  omega

theorem encodeEntry_le_encodeEntries (e : PluginDescriptor)
    (es : List PluginDescriptor) (h : e ∈ es) :
    (encodeEntry e).length ≤ (encodeEntries es).length := by
  induction es with
  | nil => cases h
  | cons x xs ih =>
    rcases List.mem_cons.mp h with rfl | hx
    · simp [encodeEntries]
    · have := ih hx
      simp only [encodeEntries, List.length_append]
      omega

/-- The store's round trip: decoding an encoded index file restores the
directory timestamp and the exact entry list. -/
theorem decodeIndexBytes_encodeIndex (dirMtime : Nat) (es : List PluginDescriptor) :
    decodeIndexBytes (encodeIndex dirMtime es) = some (dirMtime, es) := by
  have hfuel : ∀ e ∈ es, jdepthO e.metadata ≤ (encodeIndex dirMtime es).length := by
    intro e he
    have h1 := jdepthO_le_encodeEntry e
    have h2 := encodeEntry_le_encodeEntries e es he
    simp only [encodeIndex, List.length_cons]
    omega
  have h1 := decodeEntries_encodeEntries es (encodeIndex dirMtime es).length [] hfuel
  rw [List.append_nil] at h1
  simp only [encodeIndex, decodeIndexBytes, if_pos rfl] at h1 ⊢
  rw [h1]
  simp

/-! ## Truncation: no strict prefix of a valid index file decodes

The decoder consumes tokens deterministically, so a successful parse over a
prefix would extend to a successful parse of the whole file with a nonempty
remainder — contradicting the whole file's exact-consumption parse.  The
extension lemmas below (stated with a possibly larger fuel, which also gives
fuel monotonicity) make that argument. -/

theorem decodeString_extend (toks ext r : List Nat) (s : String)
    (h : decodeString toks = some (s, r)) :
    decodeString (toks ++ ext) = some (s, r ++ ext) := by
  cases toks with
  | nil => simp [decodeString] at h
  | cons n rest =>
    simp only [decodeString] at h
    by_cases hn : n ≤ rest.length
    · rw [if_pos hn] at h
      simp only [Option.some.injEq, Prod.mk.injEq] at h
      obtain ⟨h1, h2⟩ := h
      simp only [List.cons_append, decodeString]
      rw [if_pos (by simp; omega)]
      rw [List.take_append_of_le_length hn, List.drop_append_of_le_length hn]
      rw [h1, h2]
    · rw [if_neg hn] at h
      cases h

mutual
theorem decodeJV_extend (f f' : Nat) (toks ext r : List Nat) (v : JValue)
    (hf : f ≤ f') (h : decodeJV f toks = some (v, r)) :
    decodeJV f' (toks ++ ext) = some (v, r ++ ext) := by
  obtain ⟨g, rfl⟩ : ∃ g, f' = g + 1 := by
    cases hf' : f' with
    | zero =>
      subst hf'
      have hf0 : f = 0 := by omega
      subst hf0
      simp [decodeJV] at h
    | succ g => exact ⟨g, rfl⟩
  unfold decodeJV at h
  split at h
  · cases h
  · obtain ⟨rfl, rfl⟩ := by simpa using h
    simp [decodeJV]
  · obtain ⟨rfl, rfl⟩ := by simpa using h
    simp [decodeJV]
  · obtain ⟨rfl, rfl⟩ := by simpa using h
    simp [decodeJV]
  · rename_i w r0
    cases hds : decodeString r0 with
    | none => rw [hds] at h; cases h
    | some p =>
      rw [hds] at h
      obtain ⟨rfl, rfl⟩ := by simpa using h
      have := decodeString_extend r0 ext p.2 p.1 hds
      simp [decodeJV, this]
  · rename_i w n r0
    cases hda : decodeJA w n r0 with
    | none => rw [hda] at h; cases h
    | some p =>
      rw [hda] at h
      obtain ⟨rfl, rfl⟩ := by simpa using h
      have := decodeJA_extend w g n r0 ext p.2 p.1 (by omega) hda
      simp [decodeJV, this]
  · rename_i w n r0
    cases hdo : decodeJO w n r0 with
    | none => rw [hdo] at h; cases h
    | some p =>
      rw [hdo] at h
      obtain ⟨rfl, rfl⟩ := by simpa using h
      have := decodeJO_extend w g n r0 ext p.2 p.1 (by omega) hdo
      simp [decodeJV, this]
  · cases h
termination_by (f, 0)
theorem decodeJA_extend (f f' n : Nat) (toks ext r : List Nat) (a : JArr)
    (hf : f ≤ f') (h : decodeJA f n toks = some (a, r)) :
    decodeJA f' n (toks ++ ext) = some (a, r ++ ext) := by
  cases n with
  | zero =>
    obtain ⟨rfl, rfl⟩ := by simpa [decodeJA] using h
    simp [decodeJA]
  | succ n =>
    unfold decodeJA at h
    cases hdv : decodeJV f toks with
    | none => rw [hdv] at h; cases h
    | some p =>
      obtain ⟨v, r1⟩ := p
      rw [hdv] at h
      simp only [] at h
      cases hda : decodeJA f n r1 with
      | none => rw [hda] at h; cases h
      | some q =>
        obtain ⟨a2, r2⟩ := q
        rw [hda] at h
        obtain ⟨rfl, rfl⟩ := by simpa using h
        have h1 := decodeJV_extend f f' toks ext r1 v hf hdv
        have h2 := decodeJA_extend f f' n r1 ext r2 a2 hf hda
        unfold decodeJA
        simp [h1, h2]
termination_by (f, n + 1)
theorem decodeJO_extend (f f' n : Nat) (toks ext r : List Nat) (o : JObj)
    (hf : f ≤ f') (h : decodeJO f n toks = some (o, r)) :
    decodeJO f' n (toks ++ ext) = some (o, r ++ ext) := by
  cases n with
  | zero =>
    obtain ⟨rfl, rfl⟩ := by simpa [decodeJO] using h
    simp [decodeJO]
  | succ n =>
    unfold decodeJO at h
    cases hds : decodeString toks with
    | none => rw [hds] at h; cases h
    | some ps =>
      obtain ⟨k, r0⟩ := ps
      rw [hds] at h
      simp only [] at h
      cases hdv : decodeJV f r0 with
      | none => rw [hdv] at h; cases h
      | some p =>
        obtain ⟨v, r1⟩ := p
        rw [hdv] at h
        simp only [] at h
        cases hdo : decodeJO f n r1 with
        | none => rw [hdo] at h; cases h
        | some q =>
          obtain ⟨o2, r2⟩ := q
          rw [hdo] at h
          obtain ⟨rfl, rfl⟩ := by simpa using h
          have h0 := decodeString_extend toks ext r0 k hds
          have h1 := decodeJV_extend f f' r0 ext r1 v hf hdv
          have h2 := decodeJO_extend f f' n r1 ext r2 o2 hf hdo
          unfold decodeJO
          simp [h0, h1, h2]
termination_by (f, n + 1)
end

theorem decodeBlob_mono (f f2 : Nat) (blob : List Nat) (o : JObj)
    (hf : f ≤ f2) (h : decodeBlob f blob = some o) :
    decodeBlob f2 blob = some o := by
  cases blob with
  | nil => simp [decodeBlob] at h
  | cons n r =>
    simp only [decodeBlob] at h ⊢
    cases hdo : decodeJO f n r with
    | none => rw [hdo] at h; cases h
    | some q =>
      obtain ⟨o1, r1⟩ := q
      rw [hdo] at h
      cases r1 with
      | cons x xs => simp at h
      | nil =>
        simp only [Option.some.injEq] at h
        subst h
        have hext := decodeJO_extend f f2 n r [] [] o1 hf hdo
        rw [List.append_nil, List.append_nil] at hext
        rw [hext]

theorem readTok_extend (toks ext r : List Nat) (n : Nat)
    (h : readTok toks = some (n, r)) :
    readTok (toks ++ ext) = some (n, r ++ ext) := by
  cases toks with
  | nil => cases h
  | cons x xs =>
    simp only [readTok, Option.some.injEq, Prod.mk.injEq] at h
    obtain ⟨rfl, rfl⟩ := h
    simp [readTok]

theorem decodeEntry_extend (f f2 : Nat) (toks ext r : List Nat)
    (e : PluginDescriptor) (hf : f ≤ f2) (h : decodeEntry f toks = some (e, r)) :
    decodeEntry f2 (toks ++ ext) = some (e, r ++ ext) := by
  unfold decodeEntry at h
  cases hds : decodeString toks with
  | none => rw [hds] at h; cases h
  | some ps =>
    obtain ⟨path, r1⟩ := ps
    rw [hds] at h
    simp only [] at h
    cases hr1 : readTok r1 with
    | none => rw [hr1] at h; cases h
    | some p1 =>
      obtain ⟨mt, r1a⟩ := p1
      rw [hr1] at h
      simp only [] at h
      cases hr2 : readTok r1a with
      | none => rw [hr2] at h; cases h
      | some p2 =>
        obtain ⟨bl, r2⟩ := p2
        rw [hr2] at h
        simp only [] at h
        by_cases hbl : bl ≤ r2.length
        · rw [if_pos hbl] at h
          cases hblob : decodeBlob f (r2.take bl) with
          | none => rw [hblob] at h; cases h
          | some o =>
            rw [hblob] at h
            simp only [Option.some.injEq, Prod.mk.injEq] at h
            obtain ⟨rfl, rfl⟩ := h
            have h0 := decodeString_extend toks ext r1 path hds
            have h1 := readTok_extend r1 ext r1a mt hr1
            have h2 := readTok_extend r1a ext r2 bl hr2
            have h3 := decodeBlob_mono f f2 (r2.take bl) o hf hblob
            have hbl2 : bl ≤ (r2 ++ ext).length := by simp; omega
            have htk : (r2 ++ ext).take bl = r2.take bl :=
              List.take_append_of_le_length hbl
            have hdk : (r2 ++ ext).drop bl = r2.drop bl ++ ext :=
              List.drop_append_of_le_length hbl
            unfold decodeEntry
            simp [h0, h1, h2, hbl2, htk, hdk, h3]
            omega
        · rw [if_neg hbl] at h; cases h

theorem decodeEntries_extend (f f2 n : Nat) (toks ext r : List Nat)
    (es : List PluginDescriptor) (hf : f ≤ f2)
    (h : decodeEntries f n toks = some (es, r)) :
    decodeEntries f2 n (toks ++ ext) = some (es, r ++ ext) := by
  induction n generalizing toks es with
  | zero =>
    simp only [decodeEntries, Option.some.injEq, Prod.mk.injEq] at h
    obtain ⟨rfl, rfl⟩ := h
    simp [decodeEntries]
  | succ n ih =>
    unfold decodeEntries at h
    cases hde : decodeEntry f toks with
    | none => rw [hde] at h; cases h
    | some p =>
      obtain ⟨e, r1⟩ := p
      rw [hde] at h
      simp only [] at h
      cases hdes : decodeEntries f n r1 with
      | none => rw [hdes] at h; cases h
      | some q =>
        obtain ⟨es1, r2⟩ := q
        rw [hdes] at h
        simp only [Option.some.injEq, Prod.mk.injEq] at h
        obtain ⟨rfl, rfl⟩ := h
        have h1 := decodeEntry_extend f f2 toks ext r1 e hf hde
        have h2 := ih r1 es1 hdes
        unfold decodeEntries
        simp [h1, h2]

/-- No strict prefix of a valid encoded index file decodes: truncation is
always detected. -/
theorem decodeIndexBytes_take (dirMtime n : Nat) (es : List PluginDescriptor)
    (hn : n < (encodeIndex dirMtime es).length) :
    decodeIndexBytes ((encodeIndex dirMtime es).take n) = none := by
  by_contra hcon
  obtain ⟨res, hres⟩ : ∃ r, decodeIndexBytes ((encodeIndex dirMtime es).take n) = some r := by
    cases hd : decodeIndexBytes ((encodeIndex dirMtime es).take n) with
    | none => exact absurd hd hcon
    | some r => exact ⟨r, rfl⟩
  obtain ⟨mt2, es2⟩ := res
  match hn3 : n, hres with
  | 0, hres => simp [encodeIndex, decodeIndexBytes] at hres
  | 1, hres => simp [encodeIndex, decodeIndexBytes] at hres
  | 2, hres => simp [encodeIndex, decodeIndexBytes] at hres
  | (m + 3), hres =>
    subst hn3
    have hm : m < (encodeEntries es).length := by
      simp only [encodeIndex, List.length_cons] at hn
      omega
    have htake : (encodeIndex dirMtime es).take (m + 3)
        = indexFormatVersion :: dirMtime :: es.length :: (encodeEntries es).take m := by
      simp [encodeIndex]
    rw [htake] at hres
    simp only [decodeIndexBytes, if_pos rfl] at hres
    set fuel1 := (indexFormatVersion :: dirMtime :: es.length :: (encodeEntries es).take m).length with hfuel1
    cases hdes : decodeEntries fuel1 es.length ((encodeEntries es).take m) with
    | none => rw [hdes] at hres; cases hres
    | some q =>
      obtain ⟨es3, r3⟩ := q
      rw [hdes] at hres
      cases r3 with
      | cons x xs => simp at hres
      | nil =>
        -- extend the prefix parse over the dropped tail
        have hsplit : encodeEntries es
            = (encodeEntries es).take m ++ (encodeEntries es).drop m := by
          simp
        have hfuel2 : fuel1 ≤ (encodeIndex dirMtime es).length := by
          rw [hfuel1]
          simp only [encodeIndex, List.length_cons, List.length_take]
          omega
        have hext := decodeEntries_extend fuel1 (encodeIndex dirMtime es).length
          es.length ((encodeEntries es).take m) ((encodeEntries es).drop m) [] es3
          hfuel2 hdes
        rw [← hsplit, List.nil_append] at hext
        -- but the full file parses with empty remainder
        have hfuelAll : ∀ e ∈ es, jdepthO e.metadata ≤ (encodeIndex dirMtime es).length := by
          intro e he
          have h1 := jdepthO_le_encodeEntry e
          have h2 := encodeEntry_le_encodeEntries e es he
          simp only [encodeIndex, List.length_cons]
          omega
        have hfull := decodeEntries_encodeEntries es (encodeIndex dirMtime es).length [] hfuelAll
        rw [List.append_nil] at hfull
        rw [hfull] at hext
        simp only [Option.some.injEq, Prod.mk.injEq] at hext
        have : (encodeEntries es).drop m = [] := hext.2.symm
        have : (encodeEntries es).length ≤ m := by
          have hlen := congrArg List.length this
          simp at hlen
          omega
        omega

/-! ## The indexer: directory state and operations

The indexer implementation (`kpluginindexer.h/cpp`, exercised by
`autotests/kpluginindextest.cpp`) is not part of the available sources, so
the following operations are modelled from the specification. -/

/-- Modelled from the spec (§4.1, §4.2): one file of a plugin directory as
the Scanner and Reader observe it — its name, its modification timestamp,
and the Descriptor Reader's outcome on it (`some` metadata if the file
parses as a descriptor, `none` for a malformed/truncated/non-descriptor
file, (§4.1: a recoverable parse failure)). -/
structure FsFile where
  name : String
  mtime : Nat
  parsed : Option JObj
deriving DecidableEq

/-- Modelled from the spec (§3–§5): the live state of one plugin directory —
its path, whether it can be opened/listed at all (§7), its own modification
timestamp (seconds resolution; changes when an entry is added, removed or
renamed inside it, per §4.4's platform filesystem semantics), the candidate
descriptor files it currently holds (the reserved index filename is not
among them, §3), and the raw content of the index file if one exists. -/
structure DirState where
  path : String
  readable : Bool
  dirMtime : Nat
  files : List FsFile
  indexFile : Option (List Nat)
deriving DecidableEq

/-- Modelled from the spec (§4.2): enumerate the directory's candidate
descriptor files; a directory that does not exist or is unreadable reports
zero entries rather than failing. -/
def scanDirectory (d : DirState) : List FsFile :=
  if d.readable then d.files else []

/-- Modelled from the spec (§4.1): the Descriptor Reader — parse one file
into a metadata mapping, or fail recoverably. -/
def readDescriptor (f : FsFile) : Option JObj :=
  f.parsed

/-- Modelled from the spec (§4.5): scan the directory and parse every
candidate, skipping individual parse failures; failed descriptors are
simply omitted. -/
def buildEntries (d : DirState) : List PluginDescriptor :=
  (scanDirectory d).filterMap
    (fun f => (readDescriptor f).map (fun m => ⟨f.name, f.mtime, m⟩))

/-- Modelled from the spec (§4.5) and the test driver's
`KPluginIndexer::createDirectoryIndex`: rebuild the index for a directory —
scan, parse every candidate, assemble a new index with a freshly captured
directory timestamp and persist it.  Fails only if the directory itself
cannot be read. -/
def createDirectoryIndex (d : DirState) : Option DirState :=
  if d.readable then
    some { d with indexFile := some (encodeIndex d.dirMtime (buildEntries d)) }
  else none

/-- Modelled from the spec (§4.3): attempt to load the directory's index
file; a missing file and an undecodable file both read as `none`. -/
def loadIndex (d : DirState) : Option (Nat × List PluginDescriptor) :=
  match d.indexFile with
  | none => none
  | some bytes => decodeIndexBytes bytes

/-- Modelled from the spec (§4.4) and the test driver's
`KPluginIndexer::isCacheUpToDate`: the Freshness Oracle — compare the live
directory's modification timestamp with the stored one; equal means
"up to date", different or index absent/corrupt means "stale".  The check
is side-effect free and never triggers a rebuild. -/
def isCacheUpToDate (d : DirState) : Bool :=
  d.readable &&
    match loadIndex d with
    | none => false
    | some (mt, _) => mt == d.dirMtime

/-- Modelled from the spec (§4.5): `buildOrRefresh` — if the Freshness
Oracle reports up to date, return the existing index unchanged with no
filesystem writes; otherwise rebuild and persist. -/
def buildOrRefresh (d : DirState) : Option (DirectoryIndex × DirState) :=
  if isCacheUpToDate d then
    match loadIndex d with
    | some (mt, es) => some (⟨d.path, mt, es⟩, d)
    | none => none
  else
    match createDirectoryIndex d with
    | some d2 => some (⟨d.path, d.dirMtime, buildEntries d⟩, d2)
    | none => none

/-- Modelled from the spec (§4.5, §6) and the test driver's
`KPluginLoader::findPlugins`: the discovery path for one directory.  With
the environment override (`KPLUGIN_SKIP_INDEX`) set, the index is bypassed
entirely — always rescan, never read or write an index file; otherwise go
through `buildOrRefresh` and read the resulting index. -/
def findPlugins (skipIndex : Bool) (d : DirState) : List PluginDescriptor × DirState :=
  if skipIndex then (buildEntries d, d)
  else
    match buildOrRefresh d with
    | some (ix, d2) => (ix.entries, d2)
    | none => ([], d)

/-! ## Claims about the indexer -/

theorem createDirectoryIndex_readable (d : DirState) (h : d.readable = true) :
    createDirectoryIndex d
      = some { d with indexFile := some (encodeIndex d.dirMtime (buildEntries d)) } := by
  simp [createDirectoryIndex, h]

/-- Concrete directory for claim C1: one parseable descriptor file, no
index yet. -/
def C1base : DirState :=
  ⟨"plugins", true, 5, [⟨"0.json", 1, some JObj.onil⟩], none⟩

/-- `C1base` right after a successful index build. -/
def C1built : DirState :=
  { C1base with indexFile := some (encodeIndex 5 (buildEntries C1base)) }

/-- `C1built` after its one file is modified in place: the file's content
and its own mtime change (by far more than the one-second resolution
window), but the directory's mtime does not — POSIX directory mtimes change
only when an entry is added, removed or renamed (spec §4.4). -/
def C1mod : DirState :=
  { C1built with files := [⟨"0.json", 42, some (JObj.ocons "name" (JValue.jstr "x") JObj.onil)⟩] }

/-- C1, counterexample: the claim also demands staleness after *modifying*
a file.  Modifying a file in place does not change the directory's own
modification timestamp, which is the only signal the Freshness Oracle
consults (spec §4.4), so the oracle still reports "up to date" no matter
how much time has elapsed: here the file's mtime moved from 1 to 42 and
its metadata changed, the file-name set is unchanged (no add/remove), and
`isCacheUpToDate` is still `true`. -/
theorem C1_modify_counterexample :
    createDirectoryIndex C1base = some C1built ∧
    C1mod.files ≠ C1built.files ∧
    C1mod.dirMtime = C1built.dirMtime ∧
    C1mod.files.map FsFile.name = C1built.files.map FsFile.name ∧
    isCacheUpToDate C1mod = true := by
  refine ⟨by decide, by decide, rfl, by decide, ?_⟩
  simp [C1mod, C1built, C1base, isCacheUpToDate, loadIndex, decodeIndexBytes_encodeIndex]

/-- C1 (amended): after a successful index build the freshness check
reports "up to date" immediately afterward; and after adding or removing a
file — any change that updates the directory's own modification timestamp —
once the timestamp-resolution window has elapsed (so the live directory
mtime differs from the recorded one), the check reports "stale".  Modifying
a file's content in place does not update the directory timestamp and is
not detected (see `C1_modify_counterexample`). -/
theorem C1_freshness_amended (d d2 : DirState)
    (h : createDirectoryIndex d = some d2) :
    isCacheUpToDate d2 = true ∧
      ∀ (files2 : List FsFile) (t : Nat), t ≠ d.dirMtime →
        isCacheUpToDate { d2 with files := files2, dirMtime := t } = false := by
  unfold createDirectoryIndex at h
  by_cases hr : d.readable = true
  · rw [if_pos hr] at h
    simp only [Option.some.injEq] at h
    subst h
    constructor
    · simp [isCacheUpToDate, loadIndex, decodeIndexBytes_encodeIndex, hr]
    · intro files2 t ht
      simp [isCacheUpToDate, loadIndex, decodeIndexBytes_encodeIndex, hr]
      omega
  · rw [if_neg hr] at h
    cases h

theorem C1_freshness_amended_witness :
    isCacheUpToDate C1built = true ∧
      isCacheUpToDate { C1built with files := [], dirMtime := 9 } = false := by
  have h := C1_freshness_amended C1base C1built (by decide)
  exact ⟨h.1, h.2 [] 9 (by decide)⟩

/-- C2: round-trip of the Index Store — writing a `DirectoryIndex` (its
directory timestamp and its entries) to the on-disk format and reading it
back yields an entry set identical to the one written: same file names,
same timestamps, same metadata (here: the identical entry list), for any
non-empty set of descriptors. -/
theorem C2_roundtrip (ix : DirectoryIndex) (h : ix.entries ≠ []) :
    decodeIndexBytes (encodeIndex ix.directoryModificationTime ix.entries)
      = some (ix.directoryModificationTime, ix.entries) :=
  decodeIndexBytes_encodeIndex _ _

theorem C2_roundtrip_witness :
    decodeIndexBytes (encodeIndex 7 [⟨"a.json", 3, JObj.onil⟩])
      = some (7, [⟨"a.json", 3, JObj.onil⟩]) :=
  C2_roundtrip ⟨"dir", 7, [⟨"a.json", 3, JObj.onil⟩]⟩ (by decide)

/-- Concrete directory for claim C3: readable, no index file. -/
def C3noIndex : DirState := ⟨"plugins", true, 3, [], none⟩

/-- C3: cache-invalid handling.  For every directory whose index file is
missing or undecodable, the next freshness check reports "stale" and the
next build succeeds with a fresh full rescan (the new index is rebuilt from
the live directory contents); the condition is never surfaced as an error —
both operations are total functions that return normally.  Moreover a
zero-byte file, any file with a mismatched version tag, and any strict
truncation of a valid index file are all undecodable, so they fall under
that hypothesis. -/
theorem C3_cache_invalid :
    (∀ d : DirState,
        (d.indexFile = none ∨ ∃ bytes, d.indexFile = some bytes ∧ decodeIndexBytes bytes = none) →
        isCacheUpToDate d = false ∧
          (d.readable = true →
            createDirectoryIndex d
              = some { d with indexFile := some (encodeIndex d.dirMtime (buildEntries d)) })) ∧
    decodeIndexBytes [] = none ∧
    (∀ v rest, v ≠ indexFormatVersion → decodeIndexBytes (v :: rest) = none) ∧
    (∀ mt es n, n < (encodeIndex mt es).length →
        decodeIndexBytes ((encodeIndex mt es).take n) = none) := by
  refine ⟨?_, rfl, ?_, ?_⟩
  · intro d hd
    have hload : loadIndex d = none := by
      rcases hd with hnone | ⟨bytes, hb, hdec⟩
      · simp [loadIndex, hnone]
      · simp [loadIndex, hb, hdec]
    constructor
    · simp [isCacheUpToDate, hload]
    · intro hr
      simp [createDirectoryIndex, hr]
  · intro v rest hv
    cases rest with
    | nil => rfl
    | cons mt r2 =>
      cases r2 with
      | nil => rfl
      | cons n r3 => simp [decodeIndexBytes, hv]
  · intro mt es n hn
    exact decodeIndexBytes_take mt n es hn

theorem C3_cache_invalid_witness :
    isCacheUpToDate C3noIndex = false ∧
    decodeIndexBytes [99, 0, 0] = none ∧
    decodeIndexBytes ((encodeIndex 5 []).take 2) = none := by
  refine ⟨(C3_cache_invalid.1 C3noIndex (Or.inl rfl)).1, ?_, ?_⟩
  · exact C3_cache_invalid.2.2.1 99 [0, 0] (by decide)
  · exact C3_cache_invalid.2.2.2 5 [] 2 (by decide)

/-- Concrete directory for the C4 counterexample: one parseable descriptor,
but the stored index file records *no* entries under the current directory
timestamp — the poisoned state the timestamp-resolution hazard (spec §5)
can leave behind. -/
def C4poison : DirState :=
  ⟨"plugins", true, 5, [⟨"a.json", 1, some JObj.onil⟩], some (encodeIndex 5 [])⟩

/-- C4, counterexample: the claim quantifies over *every* directory state,
but when a stale index's recorded directory timestamp collides with the
live one (the documented §5 hazard), the indexed path serves the stale
entries while the bypass path rescans: the two result sets differ. -/
theorem C4_bypass_counterexample :
    (findPlugins false C4poison).1 ≠ (findPlugins true C4poison).1 := by
  simp [C4poison, findPlugins, buildOrRefresh, isCacheUpToDate, loadIndex,
    decodeIndexBytes_encodeIndex, buildEntries, scanDirectory, readDescriptor]

/-- C4 (amended): with the skip-index signal set, discovery never reads or
writes an index file — its result is independent of the stored index bytes
and it returns the directory state unchanged — and its result set equals
the indexed path's result for the same directory contents *provided* any
stored index the freshness check would accept records the directory's
current contents (always the case immediately after a successful build).
When a stale index's timestamp collides with the live directory timestamp,
the indexed path may differ (`C4_bypass_counterexample`). -/
theorem C4_bypass_amended (d : DirState)
    (h : ∀ mt es, loadIndex d = some (mt, es) → mt = d.dirMtime → es = buildEntries d) :
    (findPlugins true d).1 = (findPlugins false d).1 ∧
    (findPlugins true d).2 = d ∧
    (∀ bytes2, (findPlugins true { d with indexFile := bytes2 }).1
        = (findPlugins true d).1) := by
  refine ⟨?_, rfl, ?_⟩
  · by_cases hu : isCacheUpToDate d = true
    · have hparts : ∃ mt es, loadIndex d = some (mt, es) ∧ mt = d.dirMtime := by
        have h2 := hu
        unfold isCacheUpToDate at h2
        cases hl : loadIndex d with
        | none => rw [hl] at h2; simp at h2
        | some p =>
          obtain ⟨mt, es⟩ := p
          rw [hl] at h2
          simp at h2
          exact ⟨mt, es, rfl, h2.2⟩
      obtain ⟨mt, es, hl, hmt⟩ := hparts
      have hes := h mt es hl hmt
      simp [findPlugins, buildOrRefresh, hu, hl, hes]
    · have hu2 : isCacheUpToDate d = false := by simpa using hu
      by_cases hr : d.readable = true
      · simp [findPlugins, buildOrRefresh, hu2, createDirectoryIndex_readable d hr]
      · have hb : buildEntries d = [] := by simp [buildEntries, scanDirectory, hr]
        simp [findPlugins, buildOrRefresh, hu2, createDirectoryIndex, hr, hb]
  · intro bytes2
    cases d
    rfl

/-- The C4 base directory and its freshly built state, used as the witness
instance of the amended claim. -/
def C4base : DirState :=
  ⟨"plugins", true, 5, [⟨"a.json", 1, some JObj.onil⟩], none⟩

def C4built : DirState :=
  { C4base with indexFile := some (encodeIndex 5 (buildEntries C4base)) }

theorem C4_bypass_amended_witness :
    (findPlugins true C4built).1 = (findPlugins false C4built).1 ∧
    (findPlugins true C4built).2 = C4built := by
  have hL : loadIndex C4built = some (5, buildEntries C4base) := by
    simp [C4built, C4base, loadIndex, decodeIndexBytes_encodeIndex]
  have h := C4_bypass_amended C4built (by
    intro mt es h1 h2
    rw [hL] at h1
    simp only [Option.some.injEq, Prod.mk.injEq] at h1
    rw [← h1.2]
    decide)
  exact ⟨h.1, h.2.1⟩

/-- C5: no write on a fresh cache — whenever the Freshness Oracle reports
up to date, `buildOrRefresh` returns the stored index (as loaded from disk)
unchanged, paired with the directory state exactly as it was: no filesystem
write happens, the index file and all descriptor files are left untouched. -/
theorem C5_no_write_on_fresh (d : DirState) (h : isCacheUpToDate d = true) :
    ∃ mt es, loadIndex d = some (mt, es) ∧
      buildOrRefresh d = some (⟨d.path, mt, es⟩, d) := by
  have h2 := h
  unfold isCacheUpToDate at h2
  cases hl : loadIndex d with
  | none => rw [hl] at h2; simp at h2
  | some p =>
    obtain ⟨mt, es⟩ := p
    refine ⟨mt, es, rfl, ?_⟩
    simp [buildOrRefresh, h, hl]

def C5built : DirState :=
  { path := "plugins", readable := true, dirMtime := 6,
    files := [⟨"b.json", 2, some JObj.onil⟩],
    indexFile := some (encodeIndex 6 (buildEntries
      ⟨"plugins", true, 6, [⟨"b.json", 2, some JObj.onil⟩], none⟩)) }

theorem C5_no_write_on_fresh_witness :
    ∃ mt es, loadIndex C5built = some (mt, es) ∧
      buildOrRefresh C5built = some (⟨C5built.path, mt, es⟩, C5built) :=
  C5_no_write_on_fresh C5built (by
    simp [C5built, isCacheUpToDate, loadIndex, decodeIndexBytes_encodeIndex])

theorem length_filterMap_isSome {α β : Type} (g : α → Option β) (l : List α)
    (h : ∀ x ∈ l, (g x).isSome) : (l.filterMap g).length = l.length := by
  induction l with
  | nil => rfl
  | cons a l ih =>
    have ha := h a (by simp)
    cases hg : g a with
    | none => rw [hg] at ha; cases ha
    | some b =>
      rw [List.filterMap_cons, hg]
      simp only [List.length_cons]
      rw [ih (fun x hx => h x (by simp [hx]))]

theorem filterMap_parsed_eq_filter (l : List FsFile) :
    l.filterMap (fun f => (f.parsed).map (fun m => (⟨f.name, f.mtime, m⟩ : PluginDescriptor)))
      = (l.filter (fun f => (f.parsed).isSome)).filterMap
          (fun f => (f.parsed).map (fun m => (⟨f.name, f.mtime, m⟩ : PluginDescriptor))) := by
  induction l with
  | nil => rfl
  | cons f fs ih =>
    cases hp : f.parsed with
    | none => simp [List.filterMap_cons, List.filter_cons, hp, ih]
    | some m => simp [List.filterMap_cons, List.filter_cons, hp, ih]

/-- C6: partial-failure isolation — for every readable directory containing
both parseable and malformed descriptor files (any number of each), the
build succeeds and its entries are exactly the successfully parsed
descriptors: the malformed files contribute nothing, every parseable file
contributes exactly one entry, and the entry count equals the number of
parseable files — so bad files never prevent or corrupt the indexing of
their siblings (a directory with 5 valid descriptors and 1 malformed file
yields exactly 5 entries: see the witness). -/
theorem C6_partial_failure (d : DirState)
    (hr : d.readable = true)
    (hbad : ∃ f ∈ d.files, f.parsed = none)
    (hgood : ∃ f ∈ d.files, (f.parsed).isSome) :
    (∃ d2, createDirectoryIndex d = some d2) ∧
    buildEntries d
      = (d.files.filter (fun f => (f.parsed).isSome)).filterMap
          (fun f => (f.parsed).map (fun m => ⟨f.name, f.mtime, m⟩)) ∧
    (buildEntries d).length
      = (d.files.filter (fun f => (f.parsed).isSome)).length := by
  have hbe : buildEntries d = d.files.filterMap
      (fun f => (f.parsed).map (fun m => (⟨f.name, f.mtime, m⟩ : PluginDescriptor))) := by
    simp [buildEntries, scanDirectory, hr, readDescriptor]
  have hsame := filterMap_parsed_eq_filter d.files
  have hlen := length_filterMap_isSome
    (fun f => (f.parsed).map (fun m => (⟨f.name, f.mtime, m⟩ : PluginDescriptor)))
    (d.files.filter (fun f => (f.parsed).isSome)) ?hall
  case hall =>
    intro f hf
    have hmem := (List.mem_filter.mp hf).2
    cases hp : f.parsed with
    | none => rw [hp] at hmem; cases hmem
    | some m => simp [hp]
  exact ⟨⟨_, createDirectoryIndex_readable d hr⟩, by rw [hbe, hsame],
    by rw [hbe, hsame, hlen]⟩

/-- Concrete directory for the C6 witness: five parseable descriptors and
one malformed file in the middle. -/
def C6dir : DirState :=
  ⟨"plugins", true, 9,
    [⟨"a1.json", 1, some JObj.onil⟩, ⟨"a2.json", 1, some JObj.onil⟩,
     ⟨"bad.bin", 1, none⟩,
     ⟨"a3.json", 1, some JObj.onil⟩, ⟨"a4.json", 1, some JObj.onil⟩,
     ⟨"a5.json", 1, some JObj.onil⟩], none⟩

theorem C6_partial_failure_witness :
    (∃ d2, createDirectoryIndex C6dir = some d2) ∧
    (buildEntries C6dir).length = 5 := by
  have h := C6_partial_failure C6dir (by decide) (by decide) (by decide)
  refine ⟨h.1, ?_⟩
  rw [h.2.2]
  decide

/-- Concrete states for C7: after a build, a file is *added* to the
directory within the same timestamp-resolution window, so the directory
mtime is unchanged although the content differs. -/
def C7base : DirState :=
  ⟨"plugins", true, 11, [⟨"p1.json", 4, some JObj.onil⟩], none⟩

def C7built : DirState :=
  { C7base with indexFile := some (encodeIndex 11 (buildEntries C7base)) }

def C7changed : DirState :=
  { C7built with files := C7built.files ++ [⟨"p2.json", 11, some JObj.onil⟩] }

/-- C7: the timestamp-resolution hazard — the Freshness Oracle's verdict
depends only on the stored-versus-live directory timestamp comparison,
never on the directory content (replacing the file list leaves the verdict
unchanged); and there are directory states that differ in content but share
the directory mtime for which the oracle still reports "up to date"
(`C7changed` adds a file to `C7built` within the resolution window). -/
theorem C7_timestamp_hazard :
    (∀ (d : DirState) (files2 : List FsFile),
        isCacheUpToDate { d with files := files2 } = isCacheUpToDate d) ∧
    createDirectoryIndex C7base = some C7built ∧
    C7changed.files ≠ C7built.files ∧
    C7changed.dirMtime = C7built.dirMtime ∧
    isCacheUpToDate C7changed = true := by
  refine ⟨?_, by decide, by decide, rfl, ?_⟩
  · intro d files2
    cases d
    rfl
  · simp [C7changed, C7built, C7base, isCacheUpToDate, loadIndex,
      decodeIndexBytes_encodeIndex]

theorem map_filePath_sublist_names (l : List FsFile) :
    ((l.filterMap (fun f => (readDescriptor f).map
        (fun m => (⟨f.name, f.mtime, m⟩ : PluginDescriptor)))).map
      PluginDescriptor.filePath).Sublist (l.map FsFile.name) := by
  induction l with
  | nil => simp
  | cons f fs ih =>
    cases hp : f.parsed with
    | none =>
      simp only [List.filterMap_cons, readDescriptor, hp, Option.map_none']
      exact ih.cons _
    | some m =>
      simp only [List.filterMap_cons, readDescriptor, hp, Option.map_some',
        List.map_cons]
      exact ih.cons₂ _

/-- C8: entry-uniqueness invariant — a real directory never contains two
files with the same name, and under that filesystem invariant every index
the builder produces, and every index loaded back from a file the store
wrote, has pairwise-distinct `filePath`s in its entry sequence. -/
theorem C8_entry_uniqueness (d : DirState) (hr : d.readable = true)
    (hnodup : (d.files.map FsFile.name).Nodup) :
    ((buildEntries d).map PluginDescriptor.filePath).Nodup ∧
    ∀ mt es, decodeIndexBytes (encodeIndex d.dirMtime (buildEntries d)) = some (mt, es) →
      (es.map PluginDescriptor.filePath).Nodup := by
  have hbe : buildEntries d = d.files.filterMap
      (fun f => (readDescriptor f).map
        (fun m => (⟨f.name, f.mtime, m⟩ : PluginDescriptor))) := by
    simp [buildEntries, scanDirectory, hr]
  have hmain : ((buildEntries d).map PluginDescriptor.filePath).Nodup := by
    rw [hbe]
    exact hnodup.sublist (map_filePath_sublist_names d.files)
  refine ⟨hmain, ?_⟩
  intro mt es hdec
  rw [decodeIndexBytes_encodeIndex] at hdec
  simp only [Option.some.injEq, Prod.mk.injEq] at hdec
  rw [← hdec.2]
  exact hmain

def C8dir : DirState :=
  ⟨"plugins", true, 4,
    [⟨"x.json", 1, some JObj.onil⟩, ⟨"y.json", 2, some JObj.onil⟩], none⟩

theorem C8_entry_uniqueness_witness :
    ((buildEntries C8dir).map PluginDescriptor.filePath).Nodup :=
  (C8_entry_uniqueness C8dir (by decide) (by decide)).1

/-! ## KUrlMimeData: the metadata codec

Translated from `src/lib/io/kurlmimedata.cpp`.  `KUrlMimeData::setMetaData`
(lines 54–64) serializes a `MetaDataMap` (a `QMap<QString, QString>`,
iterated in its key order) into the `application/x-kio-metadata` payload by
appending, for each pair, the key, the separator `$@@$`, the value, and the
separator again.  `KUrlMimeData::urlsFromMimeData` (lines 157–176) reads
that payload back: if nonempty, it chops the trailing four characters (the
code asserts the payload ends with the separator), splits on `$@@$` keeping
empty parts, and walks the pieces alternating key/value, inserting a pair
into the output map at each value; a trailing unpaired key inserts nothing.
Strings are modelled as lists of characters (QString is a sequence of
UTF-16 units; the payload goes through UTF-8 bytes, which is injective and
immaterial to the pair structure). -/

/-- The metadata separator `$@@$`. -/
def sepChars : List Char := ['$', '@', '@', '$']

/-- The three-character string `$@@` (the separator missing its final
char); a key or value ending in it makes a spurious separator occurrence
straddle the boundary. -/
def sep3 : List Char := ['$', '@', '@']

/-- From `KUrlMimeData::setMetaData` (kurlmimedata.cpp:57–62): the
`application/x-kio-metadata` payload built from the map's pairs in
iteration order: `key ++ "$@@$" ++ value ++ "$@@$"` for each pair. -/
def setMetaDataPayload : List (List Char × List Char) → List Char
  | [] => []
  | (k, v) :: rest => k ++ sepChars ++ v ++ sepChars ++ setMetaDataPayload rest

/-- `QString::split("$@@$")` with `Qt::KeepEmptyParts`, mirrored on
character lists: scan left to right, consume the leftmost occurrence of the
separator (occurrences do not overlap), keep empty pieces; the split of the
empty string is one empty piece.  Written with explicit fuel (one unit per
leading character or separator consumed) so the function is structurally
recursive; `splitSep` supplies sufficient fuel. -/
def splitSepF : Nat → List Char → List (List Char)
  | _, [] => [[]]
  | 0, l => [l]
  | fuel + 1, c :: cs =>
    if sepChars.isPrefixOf (c :: cs) then
      [] :: splitSepF fuel ((c :: cs).drop 4)
    else
      match splitSepF fuel cs with
      | [] => [[c]]
      | p :: ps => (c :: p) :: ps

def splitSep (l : List Char) : List (List Char) :=
  splitSepF l.length l

/-- `QString::chop(4)` after the `endsWith("$@@$")` assertion
(kurlmimedata.cpp:161–162): drop the final four characters. -/
def chopFour (s : List Char) : List Char := s.take (s.length - 4)

/-- The key/value alternation of kurlmimedata.cpp:164–173: pieces are read
as key, value, key, value, …; each value inserts a pair; a trailing
unpaired key inserts nothing (the code asserts the piece count is even). -/
def pairUp : List (List Char) → List (List Char × List Char)
  | k :: v :: rest => (k, v) :: pairUp rest
  | _ => []

/-- The metadata-population step of `KUrlMimeData::urlsFromMimeData`
(kurlmimedata.cpp:157–176): an empty payload populates nothing; a nonempty
payload is chopped, split on the separator, and paired up.  The output maps
pairs in encounter order (QMap insertion; original keys are distinct). -/
def extractMetaDataPairs (payload : List Char) : List (List Char × List Char) :=
  if payload.isEmpty then [] else pairUp (splitSep (chopFour payload))

/-- Does the separator occur anywhere in the string? -/
def hasSepOcc : List Char → Bool
  | [] => false
  | c :: cs => sepChars.isPrefixOf (c :: cs) || hasSepOcc cs

theorem hasSepOcc_of_decomp (a b s : List Char) (h : s = a ++ sepChars ++ b) :
    hasSepOcc s = true := by
  subst h
  induction a with
  | nil =>
    have hp : sepChars.isPrefixOf (sepChars ++ b) = true := by
      rw [ List.isPrefixOf_iff_prefix]
      exact List.prefix_append _ _
    simp only [List.nil_append]
    rw [show sepChars ++ b = '$' :: ('@' :: '@' :: '$' :: b) from rfl] at hp ⊢
    rw [hasSepOcc]
    rw [hp]
    simp
  | cons x a ih =>
    simp only [List.cons_append]
    rw [hasSepOcc]
    rw [ih]
    simp

theorem noSep_of_hasSepOcc_false (s : List Char) (h : hasSepOcc s = false) :
    ¬∃ a b, s = a ++ sepChars ++ b := by
  rintro ⟨a, b, hab⟩
  rw [hasSepOcc_of_decomp a b s hab] at h
  cases h

theorem notEnds3_of_isSuffixOf_false (s : List Char)
    (h : sep3.isSuffixOf s = false) : ¬∃ a, s = a ++ sep3 := by
  rintro ⟨a, ha⟩
  have : sep3.isSuffixOf s = true := by
    rw [ List.isSuffixOf_iff_suffix]
    exact ⟨a, ha.symm⟩
  rw [this] at h
  cases h

/-- `splitSepF` does not depend on the fuel once the fuel covers the input
length. -/
theorem splitSepF_fuel_irrel (f1 : Nat) (l : List Char) (f2 : Nat)
    (h1 : l.length ≤ f1) (h2 : l.length ≤ f2) :
    splitSepF f1 l = splitSepF f2 l := by
  induction f1 generalizing l f2 with
  | zero =>
    cases l with
    | nil => cases f2 <;> rfl
    | cons c cs => simp at h1
  | succ g1 ih =>
    cases l with
    | nil => cases f2 <;> rfl
    | cons c cs =>
      obtain ⟨g2, rfl⟩ : ∃ g2, f2 = g2 + 1 := by
        cases f2 with
        | zero => simp at h2
        | succ g2 => exact ⟨g2, rfl⟩
      simp only [splitSepF]
      by_cases hp : sepChars.isPrefixOf (c :: cs) = true
      · rw [if_pos hp, if_pos hp]
        rw [ih ((c :: cs).drop 4) g2 (by simp at h1 ⊢; omega) (by simp at h2 ⊢; omega)]
      · rw [if_neg hp, if_neg hp]
        rw [ih cs g2 (by simp at h1; omega) (by simp at h2; omega)]

/-- A string with no separator occurrence splits into itself alone. -/
theorem splitSepF_noSep (s : List Char) (fuel : Nat)
    (hocc : hasSepOcc s = false) (hf : s.length ≤ fuel) :
    splitSepF fuel s = [s] := by
  induction s generalizing fuel with
  | nil => cases fuel <;> rfl
  | cons c cs ih =>
    obtain ⟨g, rfl⟩ : ∃ g, fuel = g + 1 := by
      cases fuel with
      | zero => simp at hf
      | succ g => exact ⟨g, rfl⟩
    rw [hasSepOcc] at hocc
    have hp : sepChars.isPrefixOf (c :: cs) = false := by
      cases hb : sepChars.isPrefixOf (c :: cs) with
      | false => rfl
      | true => rw [hb] at hocc; simp at hocc
    have hocc2 : hasSepOcc cs = false := by
      rw [hp] at hocc
      simpa using hocc
    simp only [splitSepF]
    rw [if_neg (by simp [hp])]
    rw [ih g hocc2 (by simp at hf; omega)]

theorem eq_nil_of_append_sep_eq (s b : List Char)
    (h1 : ¬∃ p q, s = p ++ sepChars ++ q) (h2 : ¬∃ p, s = p ++ sep3)
    (heq : s ++ sepChars = sepChars ++ b) : s = [] := by
  rcases s with _ | ⟨c, _ | ⟨d, _ | ⟨e, _ | ⟨f, s4⟩⟩⟩⟩
  · rfl
  · exfalso
    simp only [sepChars, List.cons_append, List.nil_append, List.cons.injEq] at heq
    exact absurd heq.2.1 (by decide)
  · exfalso
    simp only [sepChars, List.cons_append, List.nil_append, List.cons.injEq] at heq
    exact absurd heq.2.2.1 (by decide)
  · exfalso
    simp only [sepChars, List.cons_append, List.nil_append, List.cons.injEq] at heq
    obtain ⟨rfl, rfl, rfl, -⟩ := heq
    exact h2 ⟨[], by simp [sep3]⟩
  · exfalso
    simp only [sepChars, List.cons_append, List.nil_append, List.cons.injEq] at heq
    obtain ⟨rfl, rfl, rfl, rfl, -⟩ := heq
    exact h1 ⟨[], s4, by simp [sepChars]⟩

/-- If a string contains no separator occurrence and does not end in `$@@`,
then the only way to write `s ++ "$@@$"` as `a ++ "$@@$" ++ b` is the
trivial one: every separator occurrence in `s ++ "$@@$"` is the final one. -/
theorem good_only_end (a s b : List Char)
    (h1 : ¬∃ p q, s = p ++ sepChars ++ q) (h2 : ¬∃ p, s = p ++ sep3)
    (heq : s ++ sepChars = a ++ sepChars ++ b) : a = s := by
  induction a generalizing s b with
  | nil => exact (eq_nil_of_append_sep_eq s b h1 h2 (by simpa using heq)).symm
  | cons x a ih =>
    cases s with
    | nil =>
      exfalso
      have hl := congrArg List.length heq
      simp [sepChars] at hl
      omega
    | cons c s' =>
      simp only [List.cons_append, List.cons.injEq] at heq
      obtain ⟨rfl, heq2⟩ := heq
      have h1' : ¬∃ p q, s' = p ++ sepChars ++ q := by
        rintro ⟨p, q, hpq⟩
        exact h1 ⟨c :: p, q, by simp [hpq]⟩
      have h2' : ¬∃ p, s' = p ++ sep3 := by
        rintro ⟨p, hp⟩
        exact h2 ⟨c :: p, by simp [hp]⟩
      rw [ih s' b h1' h2' heq2]

/-- Splitting a string of the form `s ++ "$@@$" ++ t`, where the separator
occurs in `s ++ "$@@$"` only at the end, peels off exactly `s`. -/
theorem splitSepF_boundary (s t : List Char) (fuel ftail : Nat)
    (hH : ∀ a b, s ++ sepChars = a ++ sepChars ++ b → a = s)
    (hf : (s ++ sepChars ++ t).length ≤ fuel) (hft : t.length ≤ ftail) :
    splitSepF fuel (s ++ sepChars ++ t) = s :: splitSepF ftail t := by
  induction s generalizing fuel with
  | nil =>
    obtain ⟨g, rfl⟩ : ∃ g, fuel = g + 1 := by
      cases fuel with
      | zero => simp [sepChars] at hf
      | succ g => exact ⟨g, rfl⟩
    simp only [List.nil_append]
    rw [show sepChars ++ t = '$' :: ('@' :: '@' :: '$' :: t) from rfl]
    simp only [splitSepF]
    rw [if_pos (show sepChars.isPrefixOf ('$' :: ('@' :: '@' :: '$' :: t)) = true by
      rw [ List.isPrefixOf_iff_prefix]
      exact List.prefix_append sepChars t)]
    simp only [List.drop_succ_cons, List.drop_zero]
    rw [splitSepF_fuel_irrel g t ftail (by simp [sepChars] at hf; omega) hft]
  | cons x s' ih =>
    obtain ⟨g, rfl⟩ : ∃ g, fuel = g + 1 := by
      cases fuel with
      | zero => simp at hf
      | succ g => exact ⟨g, rfl⟩
    simp only [List.cons_append]
    simp only [splitSepF]
    have hcond : sepChars.isPrefixOf (x :: (s' ++ sepChars ++ t)) = false := by
      cases hb : sepChars.isPrefixOf (x :: (s' ++ sepChars ++ t)) with
      | false => rfl
      | true =>
        exfalso
        rw [ List.isPrefixOf_iff_prefix] at hb
        obtain ⟨rest, hrest⟩ := hb
        have hfull : sepChars ++ rest = ((x :: s') ++ sepChars) ++ t := by
          simpa [List.append_assoc] using hrest
        have htk := congrArg (List.take ((x :: s') ++ sepChars).length) hfull
        rw [List.take_left] at htk
        rw [List.take_append_eq_append_take] at htk
        rw [List.take_of_length_le (by simp [sepChars])] at htk
        have hkey := hH [] (List.take (((x :: s') ++ sepChars).length - sepChars.length) rest)
          (by rw [← htk]; simp)
        cases hkey
    rw [if_neg (by simp only [hcond]; simp)]
    have hH2 : ∀ a b, s' ++ sepChars = a ++ sepChars ++ b → a = s' := by
      intro a b hab
      have hx := hH (x :: a) b (by simp [hab])
      simpa using hx
    rw [ih g hH2 (by simp at hf ⊢; omega)]

theorem good_hH (s : List Char) (ho : hasSepOcc s = false)
    (he : sep3.isSuffixOf s = false) :
    ∀ a b, s ++ sepChars = a ++ sepChars ++ b → a = s :=
  fun a b heq => good_only_end a s b (noSep_of_hasSepOcc_false s ho)
    (notEnds3_of_isSuffixOf_false s he) heq

theorem splitSep_boundary (s t : List Char) (ho : hasSepOcc s = false)
    (he : sep3.isSuffixOf s = false) :
    splitSep (s ++ sepChars ++ t) = s :: splitSep t :=
  splitSepF_boundary s t (s ++ sepChars ++ t).length t.length
    (good_hH s ho he) (le_refl _) (le_refl _)

theorem splitSep_noSep (s : List Char) (ho : hasSepOcc s = false) :
    splitSep s = [s] :=
  splitSepF_noSep s s.length ho (le_refl _)

theorem chopFour_append_sep (u : List Char) : chopFour (u ++ sepChars) = u := by
  unfold chopFour
  rw [List.length_append]
  rw [show sepChars.length = 4 from rfl, Nat.add_sub_cancel]
  exact List.take_left u sepChars

theorem chopFour_append (u r : List Char) (h : 4 ≤ r.length) :
    chopFour (u ++ r) = u ++ chopFour r := by
  unfold chopFour
  rw [List.length_append]
  rw [List.take_append_eq_append_take]
  rw [List.take_of_length_le (by omega)]
  rw [show u.length + r.length - 4 - u.length = r.length - 4 by omega]

theorem setMetaDataPayload_length_ge (l : List (List Char × List Char))
    (h : l ≠ []) : 4 ≤ (setMetaDataPayload l).length := by
  cases l with
  | nil => exact absurd rfl h
  | cons p rest =>
    obtain ⟨k, v⟩ := p
    simp [setMetaDataPayload, sepChars]
    omega

theorem setMetaDataPayload_not_empty (l : List (List Char × List Char))
    (h : l ≠ []) : (setMetaDataPayload l).isEmpty = false := by
  cases hp : (setMetaDataPayload l).isEmpty with
  | false => rfl
  | true =>
    exfalso
    have h4 := setMetaDataPayload_length_ge l h
    rw [List.isEmpty_iff] at hp
    rw [hp] at h4
    simp at h4

/-- C9 (amended): for every metadata map whose keys and values contain no
occurrence of the separator `$@@$` *and none of which ends with the three
characters `$@@`*, `setMetaData` followed by the metadata extraction of
`urlsFromMimeData` restores exactly the original key/value pairs.  (The
extra no-`$@@`-suffix condition is forced by `C9_metadata_counterexample`:
a key or value ending in `$@@` fuses with the following separator into a
spurious, earlier separator occurrence and shifts the split.) -/
theorem C9_metadata_roundtrip_amended (l : List (List Char × List Char))
    (h : ∀ p ∈ l, hasSepOcc p.1 = false ∧ sep3.isSuffixOf p.1 = false ∧
        hasSepOcc p.2 = false ∧ sep3.isSuffixOf p.2 = false) :
    extractMetaDataPairs (setMetaDataPayload l) = l := by
  induction l with
  | nil => rfl
  | cons p rest ih =>
    obtain ⟨k, v⟩ := p
    obtain ⟨hk1, hk2, hv1, hv2⟩ := h (k, v) (by simp)
    have hrest : ∀ q ∈ rest, hasSepOcc q.1 = false ∧ sep3.isSuffixOf q.1 = false ∧
        hasSepOcc q.2 = false ∧ sep3.isSuffixOf q.2 = false :=
      fun q hq => h q (by simp [hq])
    by_cases hr : rest = []
    · subst hr
      unfold extractMetaDataPairs
      rw [setMetaDataPayload_not_empty _ (by simp)]
      simp only [Bool.false_eq_true, if_neg, not_false_iff]
      have hshape : setMetaDataPayload [(k, v)] = (k ++ sepChars ++ v) ++ sepChars := by
        simp [setMetaDataPayload, List.append_assoc]
      rw [hshape, chopFour_append_sep]
      rw [splitSep_boundary k v hk1 hk2]
      rw [splitSep_noSep v hv1]
      rfl
    · unfold extractMetaDataPairs
      rw [setMetaDataPayload_not_empty _ (by simp)]
      simp only [Bool.false_eq_true, if_neg, not_false_iff]
      have hshape : setMetaDataPayload ((k, v) :: rest)
          = (k ++ sepChars ++ v ++ sepChars) ++ setMetaDataPayload rest := by
        simp [setMetaDataPayload, List.append_assoc]
      rw [hshape, chopFour_append _ _ (setMetaDataPayload_length_ge rest hr)]
      have hshape2 : (k ++ sepChars ++ v ++ sepChars) ++ chopFour (setMetaDataPayload rest)
          = k ++ sepChars ++ (v ++ sepChars ++ chopFour (setMetaDataPayload rest)) := by
        simp [List.append_assoc]
      rw [hshape2]
      rw [splitSep_boundary k _ hk1 hk2]
      rw [splitSep_boundary v _ hv1 hv2]
      have ihr := ih hrest
      unfold extractMetaDataPairs at ihr
      rw [setMetaDataPayload_not_empty _ hr] at ihr
      simp only [Bool.false_eq_true, if_neg, not_false_iff] at ihr
      rw [pairUp]
      rw [ihr]

/-- C9, counterexample: the claim as stated requires only that keys and
values contain no occurrence of `$@@$`.  The key `x$@@` satisfies that, yet
its trailing `$@@` fuses with the following separator: the payload
`x$@@$@@$v$@@$` is chopped to `x$@@$@@$v`, whose *leftmost* `$@@$`
occurrence starts inside the key, so the split returns the pieces `x` and
`@@$v` and the extracted map is `{x ↦ @@$v}`, not the original
`{x$@@ ↦ v}`. -/
theorem C9_metadata_counterexample :
    hasSepOcc ['x', '$', '@', '@'] = false ∧
    hasSepOcc ['v'] = false ∧
    extractMetaDataPairs (setMetaDataPayload [(['x', '$', '@', '@'], ['v'])])
      ≠ [(['x', '$', '@', '@'], ['v'])] ∧
    extractMetaDataPairs (setMetaDataPayload [(['x', '$', '@', '@'], ['v'])])
      = [(['x'], ['@', '@', '$', 'v'])] := by
  decide

theorem C9_metadata_roundtrip_amended_witness :
    extractMetaDataPairs (setMetaDataPayload [(['k'], ['v', '1']), (['q'], [])])
      = [(['k'], ['v', '1']), (['q'], [])] :=
  C9_metadata_roundtrip_amended [(['k'], ['v', '1']), (['q'], [])] (by decide)

/-! ## KTextToHTML: plain text to HTML

Translated from `src/lib/text/ktexttohtml.cpp`.  Text is modelled as a list
of characters (`QString` is a sequence of UTF-16 units; every character the
converter treats specially is ASCII).  The `ReplaceSmileys`,
`HighlightText` and `ConvertPhoneNumbers` options are not modelled: their
code paths call the external emoticons plugin resp. `QRegularExpression`,
and every claim below uses empty option flags, for which the source skips
those branches entirely.  `QChar::isLetterOrNumber`, `isPrint` and
`isSpace` consult full Unicode tables; they are approximated over ASCII
below and are evaluated by the theorems only at positions where their
result cannot influence the outcome (the claims' hypotheses force the URL
and e-mail scanners to bail out before using them). -/

/-- Character at a position; positions are always guarded by length checks
as in the source. -/
def charAt (t : List Char) (i : Nat) : Char := t.getD i (Char.ofNat 0)

/-- ASCII approximation of `QChar::isLetterOrNumber`. -/
def qIsLetterOrNumber (c : Char) : Bool := c.isAlpha || c.isDigit

/-- ASCII approximation of `QChar::isSpace` (space and the C0 whitespace
controls, plus NBSP). -/
def qIsSpace (c : Char) : Bool :=
  c = ' ' || c = '\t' || c = '\n' || c = '\r' ||
  c = Char.ofNat 11 || c = Char.ofNat 12 || c = Char.ofNat 0xa0

/-- ASCII approximation of `QChar::isPrint` (printable, not a control
character). -/
def qIsPrint (c : Char) : Bool :=
  (0x20 ≤ c.toNat && c.toNat ≤ 0x7e) || 0xa0 ≤ c.toNat

/-- The dot-atom special characters of RFC 2822 (ktexttohtml.cpp:72,201):
`. ! # $ % & ' * + - / = ? ^ _ \x60 \x7b | \x7d ~`. -/
def allowedSpecialChars : List Char :=
  ".!#$%&".data ++ [Char.ofNat 39] ++ "*+-/=?^_".data ++
    [Char.ofNat 0x60, Char.ofNat 0x7b, Char.ofNat 0x7c, Char.ofNat 0x7d, Char.ofNat 0x7e]

/-- `mText.midRef(pos, n) == lit` for a literal of length `n`: the literal
occurs in `text` starting at `pos`. -/
def matchesAt (text : List Char) (pos : Nat) (lit : String) : Bool :=
  lit.data.isPrefixOf (text.drop pos)

/-- From `KTextToHTMLHelper::atUrl` (ktexttohtml.cpp:197–228): the position
starts a recognized URL, provided the preceding character is not a letter,
digit or dot-atom character. -/
def atUrl (text : List Char) (pos : Nat) : Bool :=
  if 0 < pos && (qIsLetterOrNumber (charAt text (pos - 1)) ||
      allowedSpecialChars.contains (charAt text (pos - 1))) then
    false
  else
    let ch := charAt text pos
    (ch = 'h' && (matchesAt text pos "http://" || matchesAt text pos "https://")) ||
    (ch = 'v' && matchesAt text pos "vnc://") ||
    (ch = 'f' && (matchesAt text pos "fish://" || matchesAt text pos "ftp://" ||
        matchesAt text pos "ftps://")) ||
    (ch = 's' && (matchesAt text pos "sftp://" || matchesAt text pos "smb://")) ||
    (ch = 'm' && matchesAt text pos "mailto:") ||
    (ch = 'w' && matchesAt text pos "www.") ||
    (ch = 'f' && (matchesAt text pos "ftp." || matchesAt text pos "file://")) ||
    (ch = 'n' && matchesAt text pos "news:") ||
    (ch = 't' && matchesAt text pos "tel:") ||
    (ch = 'x' && matchesAt text pos "xmpp:")

/-- From `KTextToHTMLHelper::isEmptyUrl` (ktexttohtml.cpp:230–250). -/
def isEmptyUrl (url : List Char) : Bool :=
  url.isEmpty ||
  url == "http://".data || url == "https://".data ||
  url == "fish://".data || url == "ftp://".data || url == "ftps://".data ||
  url == "sftp://".data || url == "smb://".data || url == "vnc://".data ||
  url == "mailto".data || url == "mailto:".data ||
  url == "www".data || url == "ftp".data ||
  url == "news:".data || url == "news://".data ||
  url == "tel".data || url == "tel:".data ||
  url == "xmpp:".data

/-- Result of `getUrl`: the collected URL text, the final scan position
(`mPos` after the call), and the bad-URL flag. -/
structure UrlScan where
  url : List Char
  pos : Nat
  bad : Bool
deriving DecidableEq

inductive UrlLoopOut where
  | ok : List Char → Nat → UrlLoopOut
  | bad : UrlLoopOut
deriving DecidableEq

/-- The collection loop of `KTextToHTMLHelper::getUrl`
(ktexttohtml.cpp:290–350), one fuel unit per iteration (each iteration
advances the position by one, so `text.length + 1` fuel always suffices).
`.ok url pos` is the loop exiting — by its condition turning false or by a
`break` — with the given accumulated url and position; `.bad` is the
early `return QString()` with `*badurl = true`. -/
def getUrlLoop (text : List Char) (afterUrl : Option Char) (maxUrlLen : Nat) :
    Nat → Nat → List Char → Bool → Bool → Bool → UrlLoopOut
  | 0, pos, url, _, _, _ => .ok url pos
  | fuel + 1, pos, url, prevSpace, prevDQuote, prevAnchor =>
    let ch := charAt text pos
    if pos < text.length && (qIsPrint ch || qIsSpace ch) &&
        (match afterUrl with
         | none => !qIsSpace ch
         | some a => ch != a) then
      if !prevSpace && ch = '<' && pos + 1 < text.length && atUrl text (pos + 1) then
        .ok url pos
      else if !prevSpace && ch = ' ' && pos + 1 < text.length && atUrl text (pos + 1) then
        .ok url pos
      else if qIsSpace ch then
        getUrlLoop text afterUrl maxUrlLen fuel (pos + 1) url true prevDQuote prevAnchor
      else if !prevAnchor && ch = '[' then
        .ok url pos
      else if !prevAnchor && ch = ']' then
        .ok url pos
      else if prevSpace && ch = '<' then
        .ok (url ++ [' ']) pos
      else if ch = '>' && prevDQuote then
        .bad
      else
        let url2 := url ++ [ch]
        if maxUrlLen < url2.length then
          .ok url2 pos
        else
          getUrlLoop text afterUrl maxUrlLen fuel (pos + 1) url2 false (ch = '"')
            (if ch = '#' then true else prevAnchor)
    else .ok url pos

/-- The word-boundary characters chopped off a URL's tail
(ktexttohtml.cpp:366). -/
def wordBoundaries : List Char := ".,:!?)>".data

/-- The trailing-punctuation chop loop of `getUrl`
(ktexttohtml.cpp:367–376); fuel is the url length. -/
def chopUrl : Nat → List Char → Nat → UrlScan
  | 0, url, pos => ⟨url, pos, false⟩
  | fuel + 1, url, pos =>
    if 1 < url.length && wordBoundaries.contains (charAt url (url.length - 1)) then
      chopUrl fuel (url.take (url.length - 1)) (pos - 1)
    else ⟨url, pos, false⟩

/-- From `KTextToHTMLHelper::getUrl` (ktexttohtml.cpp:252–378). -/
def getUrl (text : List Char) (startPos maxUrlLen : Nat) : UrlScan :=
  if atUrl text startPos then
    let afterUrl : Option Char :=
      if 0 < startPos then
        if charAt text (startPos - 1) = '[' then some ']'
        else if charAt text (startPos - 1) = '<' then some '>'
        else if charAt text (startPos - 1) = '>' then some '<'
        else if charAt text (startPos - 1) = '"' then some '"'
        else none
      else none
    match getUrlLoop text afterUrl maxUrlLen (text.length + 1) startPos [] false false false with
    | .bad => ⟨[], startPos, true⟩
    | .ok url pos =>
      if isEmptyUrl url || maxUrlLen < url.length then
        ⟨[], startPos, false⟩
      else
        chopUrl url.length url (pos - 1)
  else ⟨[], startPos, false⟩

/-- The backward scan for the local part of an e-mail address
(ktexttohtml.cpp:75–84), examining index `i` downwards; `none` means a
second `@` was found (no address). -/
def emailScanBack (text : List Char) : Nat → Option Nat
  | 0 =>
    if (charAt text 0).toNat < 128 &&
        (qIsLetterOrNumber (charAt text 0) || charAt text 0 = '@' ||
         allowedSpecialChars.contains (charAt text 0)) then
      if charAt text 0 = '@' then none else some 0
    else some 1
  | j + 1 =>
    if (charAt text (j + 1)).toNat < 128 &&
        (qIsLetterOrNumber (charAt text (j + 1)) || charAt text (j + 1) = '@' ||
         allowedSpecialChars.contains (charAt text (j + 1))) then
      if charAt text (j + 1) = '@' then none else emailScanBack text j
    else some (j + 2)

/-- Skip forward over non-alphanumeric characters, staying below `stop`
(ktexttohtml.cpp:87–89). -/
def skipNonAlnum (text : List Char) (stop : Nat) : Nat → Nat → Nat
  | 0, i => i
  | fuel + 1, i =>
    if i < stop && !qIsLetterOrNumber (charAt text i) then
      skipNonAlnum text stop fuel (i + 1)
    else i

/-- The forward scan over the domain part, remembering the first dot
(ktexttohtml.cpp:95–109); `none` means a second `@` was found. -/
def emailScanFwd (text : List Char) : Nat → Nat → Option Nat → Option (Nat × Option Nat)
  | 0, i, dp => some (i, dp)
  | fuel + 1, i, dp =>
    if i < text.length &&
        (qIsLetterOrNumber (charAt text i) || charAt text i = '@' ||
         charAt text i = '.' || charAt text i = '-') then
      if charAt text i = '@' then none
      else
        emailScanFwd text fuel (i + 1)
          (if charAt text i = '.' then
            (match dp with
             | none => some i
             | some d => some d)
          else dp)
    else some (i, dp)

/-- Trim the scan end back over non-alphanumeric characters, staying above
`stop` (ktexttohtml.cpp:111–113). -/
def trimEnd (text : List Char) (stop : Nat) : Nat → Nat → Nat
  | 0, i => i
  | fuel + 1, i =>
    if stop < i && !qIsLetterOrNumber (charAt text (i - 1)) then
      trimEnd text stop fuel (i - 1)
    else i

/-- From `KTextToHTMLHelper::getEmailAddress` (ktexttohtml.cpp:65–129):
returns the address (empty if none) and the final position `mPos`. -/
def getEmailAddress (text : List Char) (pos maxAddressLen : Nat) : List Char × Nat :=
  if charAt text pos = '@' then
    match (if pos = 0 then some 0 else emailScanBack text (pos - 1)) with
    | none => ([], pos)
    | some s0 =>
      let start := skipNonAlnum text pos pos s0
      if start = pos then ([], pos)
      else
        match emailScanFwd text (text.length + 1) (pos + 1) none with
        | none => ([], pos)
        | some (e0, dp) =>
          let e := trimEnd text pos e0 e0
          if e = pos then ([], pos)
          else
            match dp with
            | none => ([], pos)
            | some d =>
              if e ≤ d then ([], pos)
              else if maxAddressLen < e - start then ([], pos)
              else ((text.drop start).take (e - start), e - 1)
  else ([], pos)

/-- `QString::toHtmlEscaped` (used on the link text,
ktexttohtml.cpp:543): escapes `<`, `>`, `&` and `"`. -/
def toHtmlEscaped : List Char → List Char
  | [] => []
  | c :: r =>
    (if c = '<' then "&lt;".data
     else if c = '>' then "&gt;".data
     else if c = '&' then "&amp;".data
     else if c = '"' then "&quot;".data
     else [c]) ++ toHtmlEscaped r

/-- The bad-URL early return of `convertToHtml` (ktexttohtml.cpp:516–532):
the whole text re-escaped with `&`, `"`, `<`, `>` only (newlines are copied
through unchanged on this path). -/
def escapeBadUrl : List Char → List Char
  | [] => []
  | c :: r =>
    (if c = '&' then "&amp;".data
     else if c = '"' then "&quot;".data
     else if c = '<' then "&lt;".data
     else if c = '>' then "&gt;".data
     else [c]) ++ escapeBadUrl r

/-- The modelled subset of `KTextToHTML::Options`: `PreserveSpaces` and
`IgnoreUrls`.  Empty flags (both `false`) is the configuration all claims
below use. -/
structure ConvertFlags where
  preserveSpaces : Bool
  ignoreUrls : Bool
deriving DecidableEq

def nbspHtml : List Char := "&nbsp;".data

/-- Length of the run of spaces starting at `i` (the inner whitespace loop
of ktexttohtml.cpp:465–469). -/
def countSpaces (text : List Char) : Nat → Nat → Nat
  | 0, _ => 0
  | fuel + 1, i =>
    if i < text.length && charAt text i = ' ' then
      countSpaces text fuel (i + 1) + 1
    else 0

def repList (l : List Char) : Nat → List Char
  | 0 => []
  | n + 1 => l ++ repList l n

/-- The main loop of `KTextToHTML::convertToHtml` (ktexttohtml.cpp:447–582)
restricted to the modelled flags; one fuel unit per iteration (the position
advances by at least one each iteration, so `text.length + 1` fuel always
suffices).  `x` is the column counter used by the tab stops. -/
def convLoop (flags : ConvertFlags) (text : List Char) (maxUrlLen maxAddressLen : Nat) :
    Nat → Nat → Nat → Bool → List Char → List Char
  | 0, _, _, _, result => result
  | fuel + 1, pos, x, startOfLine, result =>
    if pos < text.length then
      let ch := charAt text pos
      if flags.preserveSpaces && ch = ' ' then
        if pos + 1 < text.length then
          if charAt text (pos + 1) != ' ' then
            convLoop flags text maxUrlLen maxAddressLen fuel (pos + 1) (x + 1) false
              (result ++
                (if !startOfLine && !(charAt text (pos + 1) = '\n') then [' '] else nbspHtml))
          else
            let cnt := countSpaces text (text.length + 1) pos
            convLoop flags text maxUrlLen maxAddressLen fuel (pos + cnt) (x + cnt) false
              (result ++ repList nbspHtml cnt)
        else
          convLoop flags text maxUrlLen maxAddressLen fuel (pos + 1) (x + 1) false
            (result ++ nbspHtml)
      else if flags.preserveSpaces && ch = '\t' then
        convLoop flags text maxUrlLen maxAddressLen fuel (pos + 1) (x + (8 - x % 8)) false
          (result ++ repList nbspHtml (8 - x % 8))
      else if ch = '\n' then
        convLoop flags text maxUrlLen maxAddressLen fuel (pos + 1) 0 true
          (result ++ "<br />\n".data)
      else if ch = '&' then
        convLoop flags text maxUrlLen maxAddressLen fuel (pos + 1) (x + 1) false
          (result ++ "&amp;".data)
      else if ch = '"' then
        convLoop flags text maxUrlLen maxAddressLen fuel (pos + 1) (x + 1) false
          (result ++ "&quot;".data)
      else if ch = '<' then
        convLoop flags text maxUrlLen maxAddressLen fuel (pos + 1) (x + 1) false
          (result ++ "&lt;".data)
      else if ch = '>' then
        convLoop flags text maxUrlLen maxAddressLen fuel (pos + 1) (x + 1) false
          (result ++ "&gt;".data)
      else if !flags.ignoreUrls then
        let us := getUrl text pos maxUrlLen
        if us.bad then
          escapeBadUrl text
        else if us.url ≠ [] then
          convLoop flags text maxUrlLen maxAddressLen fuel (us.pos + 1)
            (x + (us.pos - pos) + 1) false
            (result ++ "<a href=\"".data ++
              (if "www.".data.isPrefixOf us.url then "http://".data ++ us.url
               else if "ftp.".data.isPrefixOf us.url then "ftp://".data ++ us.url
               else us.url) ++
              "\">".data ++ toHtmlEscaped us.url ++ "</a>".data)
        else
          let es := getEmailAddress text pos maxAddressLen
          if es.1 ≠ [] then
            convLoop flags text maxUrlLen maxAddressLen fuel (es.2 + 1)
              (x - (es.1.indexOf '@') + es.1.length) false
              ((result.take (result.length -
                  ((es.1.indexOf '@') + (es.1.take (es.1.indexOf '@')).count '&' * 4))) ++
                "<a href=\"mailto:".data ++ es.1 ++ "\">".data ++ es.1 ++ "</a>".data)
          else
            convLoop flags text maxUrlLen maxAddressLen fuel (pos + 1) (x + 1) false
              (result ++ [ch])
      else
        convLoop flags text maxUrlLen maxAddressLen fuel (pos + 1) (x + 1) false
          (result ++ [ch])
    else result

/-- `KTextToHTML::convertToHtml` (ktexttohtml.cpp:437–596) for the modelled
flag subset (with neither `ReplaceSmileys` nor `HighlightText` nor
`ConvertPhoneNumbers`, the post-loop emoticon pass is the identity). -/
def convertToHtml (flags : ConvertFlags) (text : List Char)
    (maxUrlLen maxAddressLen : Nat) : List Char :=
  convLoop flags text maxUrlLen maxAddressLen (text.length + 1) 0 0 true []

/-- The URL prefixes `atUrl` recognizes (the claim's list). -/
def urlPrefixes : List (List Char) :=
  ["http://".data, "https://".data, "vnc://".data, "fish://".data,
   "ftp://".data, "ftps://".data, "sftp://".data, "smb://".data,
   "mailto:".data, "www.".data, "ftp.".data, "file://".data,
   "news:".data, "tel:".data, "xmpp:".data]

/-- Does some recognized URL prefix occur anywhere in the text? -/
def hasUrlPrefix : List Char → Bool
  | [] => false
  | c :: cs => urlPrefixes.any (fun p => p.isPrefixOf (c :: cs)) || hasUrlPrefix cs

/-- The transformation the claim describes, stated from its words: `&`
becomes `&amp;`, `"` becomes `&quot;`, `<` becomes `&lt;`, `>` becomes
`&gt;`, a newline becomes `<br />` plus the newline, and every other
character is copied unchanged. -/
def escapeSpec : List Char → List Char
  | [] => []
  | c :: r =>
    (if c = '&' then "&amp;".data
     else if c = '"' then "&quot;".data
     else if c = '<' then "&lt;".data
     else if c = '>' then "&gt;".data
     else if c = '\n' then "<br />\n".data
     else [c]) ++ escapeSpec r

theorem no_prefix_at (t : List Char) (h : hasUrlPrefix t = false) :
    ∀ (i : Nat) (p : List Char), p ∈ urlPrefixes → p.isPrefixOf (t.drop i) = false := by
  induction t with
  | nil =>
    intro i p hp
    rw [List.drop_nil]
    have hne : p ≠ [] := by
      intro hnil
      subst hnil
      revert hp
      decide
    cases p with
    | nil => exact absurd rfl hne
    | cons a as => rfl
  | cons c cs ih =>
    rw [hasUrlPrefix] at h
    rw [Bool.or_eq_false_iff] at h
    intro i p hp
    cases i with
    | zero =>
      rw [List.drop_zero]
      cases hb : p.isPrefixOf (c :: cs) with
      | false => rfl
      | true =>
        exfalso
        have : urlPrefixes.any (fun q => q.isPrefixOf (c :: cs)) = true :=
          List.any_eq_true.mpr ⟨p, hp, hb⟩
        rw [this] at h
        exact absurd h.1 (by simp)
    | succ j =>
      rw [List.drop_succ_cons]
      exact ih h.2 j p hp

theorem atUrl_eq_false (t : List Char) (h : hasUrlPrefix t = false) (i : Nat) :
    atUrl t i = false := by
  have hall := no_prefix_at t h i
  have h01 := hall "http://".data (by decide)
  have h02 := hall "https://".data (by decide)
  have h03 := hall "vnc://".data (by decide)
  have h04 := hall "fish://".data (by decide)
  have h05 := hall "ftp://".data (by decide)
  have h06 := hall "ftps://".data (by decide)
  have h07 := hall "sftp://".data (by decide)
  have h08 := hall "smb://".data (by decide)
  have h09 := hall "mailto:".data (by decide)
  have h10 := hall "www.".data (by decide)
  have h11 := hall "ftp.".data (by decide)
  have h12 := hall "file://".data (by decide)
  have h13 := hall "news:".data (by decide)
  have h14 := hall "tel:".data (by decide)
  have h15 := hall "xmpp:".data (by decide)
  unfold atUrl
  simp only [matchesAt, h01, h02, h03, h04, h05, h06, h07, h08, h09, h10,
    h11, h12, h13, h14, h15]
  simp

theorem getUrl_not_atUrl (t : List Char) (pos m : Nat) (h : atUrl t pos = false) :
    getUrl t pos m = ⟨[], pos, false⟩ := by
  unfold getUrl
  rw [if_neg (by simp [h])]

theorem getEmailAddress_not_at (t : List Char) (pos m : Nat)
    (h : charAt t pos ≠ '@') :
    getEmailAddress t pos m = ([], pos) := by
  unfold getEmailAddress
  rw [if_neg h]

theorem charAt_mem (t : List Char) (pos : Nat) (h : pos < t.length) :
    charAt t pos ∈ t := by
  unfold charAt
  rw [List.getD_eq_getElem?_getD, List.getElem?_eq_getElem h]
  exact List.getElem_mem h

theorem drop_eq_charAt_cons (t : List Char) (pos : Nat) (h : pos < t.length) :
    t.drop pos = charAt t pos :: t.drop (pos + 1) := by
  unfold charAt
  rw [List.getD_eq_getElem?_getD, List.getElem?_eq_getElem h]
  exact List.drop_eq_getElem_cons h

theorem convLoop_escape (t : List Char) (mU mA : Nat)
    (hat : '@' ∉ t) (hurl : hasUrlPrefix t = false) :
    ∀ fuel pos, t.length ≤ fuel + pos → ∀ x sol acc,
      convLoop ⟨false, false⟩ t mU mA fuel pos x sol acc
        = acc ++ escapeSpec (t.drop pos) := by
  intro fuel
  induction fuel with
  | zero =>
    intro pos hp x sol acc
    rw [List.drop_eq_nil_of_le (by omega)]
    rw [convLoop, escapeSpec]
    simp
  | succ fuel ih =>
    intro pos hp x sol acc
    by_cases hlt : pos < t.length
    · have hdrop := drop_eq_charAt_cons t pos hlt
      have hcne : charAt t pos ≠ '@' := by
        intro hcc
        exact hat (hcc ▸ charAt_mem t pos hlt)
      have hrec := fun x2 sol2 acc2 =>
        ih (pos + 1) (by omega) x2 sol2 acc2
      rw [convLoop]
      rw [if_pos hlt]
      rw [hdrop, escapeSpec]
      simp only []
      by_cases h1 : charAt t pos = '\n'
      · rw [if_neg (by simp), if_neg (by simp), if_pos (by simp [h1])]
        rw [hrec 0 true (acc ++ "<br />\n".data)]
        simp [h1, List.append_assoc]
      · by_cases h2 : charAt t pos = '&'
        · rw [if_neg (by simp), if_neg (by simp), if_neg (by simp [h1]),
            if_pos (by simp [h2])]
          rw [hrec (x + 1) false (acc ++ "&amp;".data)]
          simp [h2, h1, List.append_assoc]
        · by_cases h3 : charAt t pos = '"'
          · rw [if_neg (by simp), if_neg (by simp), if_neg (by simp [h1]),
              if_neg (by simp [h2]), if_pos (by simp [h3])]
            rw [hrec (x + 1) false (acc ++ "&quot;".data)]
            simp [h3, h2, h1, List.append_assoc]
          · by_cases h4 : charAt t pos = '<'
            · rw [if_neg (by simp), if_neg (by simp), if_neg (by simp [h1]),
                if_neg (by simp [h2]), if_neg (by simp [h3]), if_pos (by simp [h4])]
              rw [hrec (x + 1) false (acc ++ "&lt;".data)]
              simp [h4, h3, h2, h1, List.append_assoc]
            · by_cases h5 : charAt t pos = '>'
              · rw [if_neg (by simp), if_neg (by simp), if_neg (by simp [h1]),
                  if_neg (by simp [h2]), if_neg (by simp [h3]), if_neg (by simp [h4]),
                  if_pos (by simp [h5])]
                rw [hrec (x + 1) false (acc ++ "&gt;".data)]
                simp [h5, h4, h3, h2, h1, List.append_assoc]
              · rw [if_neg (by simp), if_neg (by simp), if_neg (by simp [h1]),
                  if_neg (by simp [h2]), if_neg (by simp [h3]), if_neg (by simp [h4]),
                  if_neg (by simp [h5]), if_pos (by simp)]
                rw [getUrl_not_atUrl t pos mU (atUrl_eq_false t hurl pos)]
                simp only []
                rw [if_neg (by simp), if_neg (by simp)]
                rw [getEmailAddress_not_at t pos mA hcne]
                simp only []
                rw [if_neg (by simp)]
                rw [hrec (x + 1) false (acc ++ [charAt t pos])]
                simp [h5, h4, h3, h2, h1, List.append_assoc]
    · rw [convLoop]
      rw [if_neg hlt]
      rw [List.drop_eq_nil_of_le (by omega)]
      rw [escapeSpec]
      simp

/-- C10: HTML-escaping postcondition — for every input containing no `@`
and no occurrence of any recognized URL prefix, `convertToHtml` with empty
option flags transforms the text character by character: `&` to `&amp;`,
`"` to `&quot;`, `<` to `&lt;`, `>` to `&gt;`, a newline to `<br />` plus
the newline, and every other character is copied unchanged. -/
theorem C10_plain_escape (text : List Char) (maxUrlLen maxAddressLen : Nat)
    (hat : '@' ∉ text) (hurl : hasUrlPrefix text = false) :
    convertToHtml ⟨false, false⟩ text maxUrlLen maxAddressLen = escapeSpec text := by
  unfold convertToHtml
  rw [convLoop_escape text maxUrlLen maxAddressLen hat hurl (text.length + 1) 0
    (by omega) 0 true []]
  simp

theorem C10_plain_escape_witness :
    convertToHtml ⟨false, false⟩ "a & b <c>\n e".data 4096 255
      = escapeSpec "a & b <c>\n e".data :=
  C10_plain_escape "a & b <c>\n e".data 4096 255 (by decide) (by decide)

end KCoreAddons
